import Mathlib

/-!
Verification of the vba-blocks lockfile codec, source backends, staging
utilities and changeset engine against their TypeScript sources.

The embedding is shallow: TypeScript functions become Lean functions,
`async` functions that can throw become `Option`/`Except`-valued
functions (`none`/`.error` models a thrown exception), and external
collaborators (the semver library, the manifest loader, the filesystem)
are threaded through explicitly as data.
-/

namespace VbaBlocks

/-! ## Data model (src/manifest/dependency, src/professional/workspace)

`Dependency` is the closed variant of §3 of the design document: exactly
one of the registry / path / git shapes.  The TypeScript predicates
`isRegistryDependency` / `isPathDependency` / `isGitDependency` are the
constructor tests.  The git refspec is kept as the TypeScript object
keeps it: three optional fields checked with `has(...)`. -/

structure RegistryDependency where
  name : String
  version : String
  registry : String
  deriving Repr, DecidableEq

structure PathDependency where
  name : String
  path : String
  version : Option String
  deriving Repr, DecidableEq

structure GitDependency where
  name : String
  git : String
  rev : Option String
  tag : Option String
  branch : Option String
  deriving Repr, DecidableEq

inductive Dependency where
  | registry (d : RegistryDependency)
  | path (d : PathDependency)
  | git (d : GitDependency)
  deriving Repr, DecidableEq

def Dependency.name : Dependency → String
  | .registry d => d.name
  | .path d => d.name
  | .git d => d.name

/-- Lockfile-oriented reduction of a manifest (`Snapshot` in src). -/
structure Snapshot where
  name : String
  version : String
  dependencies : List Dependency
  deriving Repr, DecidableEq

structure Workspace where
  root : Snapshot
  members : List Snapshot
  deriving Repr, DecidableEq

/-- The resolver's node (`Registration` in src/sources/registration);
only the fields touched by the lockfile codec are modelled. -/
structure Registration where
  id : String
  name : String
  version : String
  source : String
  dependencies : List Dependency
  deriving Repr, DecidableEq

structure LockfileMetadata where
  version : String
  deriving Repr, DecidableEq

/-- `Lockfile` interface from src (lockfile module). -/
structure Lockfile where
  metadata : Option LockfileMetadata
  workspace : Workspace
  packages : List Registration
  deriving Repr, DecidableEq

/-- `LOCKFILE_VERSION = '1'` from the lockfile module. -/
def LOCKFILE_VERSION : String := "1"

/-- External collaborators used by the validity check: the npm `semver`
package's `satisfies(version, range)` and `loadManifest` (only its
`version` field is consulted; `none` models a thrown load error). -/
structure Env where
  satisfiesSemver : String → String → Bool
  loadManifestVersion : String → Option String

/-- Building a JS object keyed by name with `forEach(d => byName[d.name] = d)`
and indexing it: the last entry with the given name wins. -/
def lookupLast {α : Type} (key : α → String) (l : List α) (n : String) : Option α :=
  l.reverse.find? (fun x => key x == n)

/-- `satisfiesDependency(value, comparison)` from the lockfile module.
`value` is the current manifest dependency, `comparison` the locked one.
Result `none` models the exception thrown by `loadManifest`. -/
def satisfiesDependency (env : Env) (value comparison : Dependency) : Option Bool :=
  match comparison with
  | .registry c =>
    match value with
    | .registry v => some (env.satisfiesSemver c.version v.version)
    | _ => some false
  | .path c =>
    match value with
    | .path v =>
      if v.path ≠ c.path then some false
      else
        match env.loadManifestVersion v.path with
        | none => none
        | some mv => some (some mv == c.version)
    | _ => some false
  | .git c =>
    match value with
    | .git v =>
      if v.rev.isSome && c.rev.isSome then some (v.rev == c.rev)
      else if v.tag.isSome && c.tag.isSome then some (v.tag == c.tag)
      else if v.branch.isSome && c.branch.isSome then some (v.branch == c.branch)
      else some false
    | _ => some false

/-- The `for..of` loop of `compareDependencies`: early `return false` on a
missing or unsatisfied locked dependency, thrown errors propagate. -/
def checkLockedDeps (env : Env) (current : List Dependency) : List Dependency → Option Bool
  | [] => some true
  | d :: rest =>
    match lookupLast Dependency.name current d.name with
    | none => some false
    | some c =>
      match satisfiesDependency env c d with
      | none => none
      | some false => some false
      | some true => checkLockedDeps env current rest

/-- `compareDependencies(current, locked)` from the lockfile module. -/
def compareDependencies (env : Env) (current locked : Snapshot) : Option Bool :=
  if current.dependencies.length ≠ locked.dependencies.length then some false
  else checkLockedDeps env current.dependencies locked.dependencies

/-- `compareManifests(current, locked)` from the lockfile module. -/
def compareManifests (env : Env) (current locked : Snapshot) : Option Bool :=
  if current.name ≠ locked.name then some false
  else if current.version ≠ locked.version then some false
  else compareDependencies env current locked

/-- The member loop of `isLockfileValid`. -/
def checkMembers (env : Env) (wmembers : List Snapshot) : List Snapshot → Option Bool
  | [] => some true
  | lm :: rest =>
    match lookupLast Snapshot.name wmembers lm.name with
    | none => some false
    | some wm =>
      match compareManifests env wm lm with
      | none => none
      | some false => some false
      | some true => checkMembers env wmembers rest

/-- `isLockfileValid(lockfile, workspace)` from the lockfile module. -/
def isLockfileValid (env : Env) (lockfile : Lockfile) (workspace : Workspace) : Option Bool :=
  match lockfile.metadata with
  | none => some false
  | some metadata =>
    if metadata.version ≠ LOCKFILE_VERSION then some false
    else
      match compareManifests env workspace.root lockfile.workspace.root with
      | none => none
      | some false => some false
      | some true =>
        if lockfile.workspace.members.length ≠ workspace.members.length then some false
        else checkMembers env workspace.members lockfile.workspace.members

/-! ## Specification-side predicates for the validity check (C1)

These follow the wording of the claim: a locked dependency is satisfied
by the current manifest dependency of the same name; registry deps by
SemVer-range satisfaction, path deps by path equality plus the nested
manifest's current version equalling the locked version, git deps by the
same ref discriminator being present with equal value. -/

def SatisfiedBy (env : Env) (c d : Dependency) : Prop :=
  match d with
  | .registry ld =>
      ∃ rc, c = .registry rc ∧ env.satisfiesSemver ld.version rc.version = true
  | .path ld =>
      ∃ pc, c = .path pc ∧ pc.path = ld.path ∧
        ∃ mv, env.loadManifestVersion pc.path = some mv ∧ ld.version = some mv
  | .git ld =>
      ∃ gc, c = .git gc ∧
        ((∃ r, gc.rev = some r ∧ ld.rev = some r) ∨
         (∃ t, gc.tag = some t ∧ ld.tag = some t) ∨
         (∃ b, gc.branch = some b ∧ ld.branch = some b))

/-- A locked dependency set matches the current one: counts are equal and
each locked dependency is satisfied by the current dependency of its name. -/
def DependencySetMatches (env : Env) (current locked : List Dependency) : Prop :=
  current.length = locked.length ∧
  ∀ d ∈ locked, ∃ c ∈ current, c.name = d.name ∧ SatisfiedBy env c d

/-- A locked snapshot matches the current one by name, version and
dependency set. -/
def SnapshotMatches (env : Env) (current locked : Snapshot) : Prop :=
  current.name = locked.name ∧ current.version = locked.version ∧
  DependencySetMatches env current.dependencies locked.dependencies

/-- The claim's conditions (a)–(c): current `LOCK_VERSION`, root snapshot
matches, and the members of the lockfile are in matching one-to-one
correspondence (by name) with the workspace members. -/
def LockfileValidSpec (env : Env) (lockfile : Lockfile) (workspace : Workspace) : Prop :=
  (∃ m, lockfile.metadata = some m ∧ m.version = LOCKFILE_VERSION) ∧
  SnapshotMatches env workspace.root lockfile.workspace.root ∧
  lockfile.workspace.members.length = workspace.members.length ∧
  ∀ lm ∈ lockfile.workspace.members,
    ∃ wm ∈ workspace.members, wm.name = lm.name ∧ SnapshotMatches env wm lm

/-- §3 invariant: a git dependency carries exactly one ref discriminator. -/
def gitRefCount (g : GitDependency) : Nat :=
  (if g.rev.isSome then 1 else 0) + (if g.tag.isSome then 1 else 0) +
    (if g.branch.isSome then 1 else 0)

def GitWf : Dependency → Prop
  | .git g => gitRefCount g = 1
  | _ => True

def DepsGitWf (s : Snapshot) : Prop := ∀ d ∈ s.dependencies, GitWf d

/-- §3/§4.1 invariant: dependency names within one manifest are unique
(dependencies are keys of a TOML map). -/
def DepNamesNodup (s : Snapshot) : Prop := (s.dependencies.map Dependency.name).Nodup

/-! ## Lemmas about `lookupLast` -/

theorem lookupLast_eq_some {α : Type} (key : α → String) (l : List α) (n : String)
    (c : α) (h : lookupLast key l n = some c) : c ∈ l ∧ key c = n := by
  unfold lookupLast at h
  have hmem := List.mem_of_find?_eq_some h
  have hp := List.find?_some h
  rw [List.mem_reverse] at hmem
  exact ⟨hmem, by simpa using hp⟩

theorem lookupLast_of_mem {α : Type} (key : α → String) (l : List α)
    (c : α) (hnd : (l.map key).Nodup) (hc : c ∈ l) :
    lookupLast key l (key c) = some c := by
  have hex : ∃ x ∈ l.reverse, (fun x => key x == key c) x = true := by
    exact ⟨c, List.mem_reverse.mpr hc, by simp⟩
  have hsome : (l.reverse.find? (fun x => key x == key c)).isSome := by
    rw [List.find?_isSome]
    exact hex
  obtain ⟨c', hc'⟩ := Option.isSome_iff_exists.mp hsome
  have h2 := lookupLast_eq_some key l (key c) c' hc'
  have : c' = c := by
    have := List.inj_on_of_nodup_map hnd h2.1 hc h2.2
    exact this
  rw [lookupLast, hc', this]

/-! ## The per-dependency check agrees with the claim's wording -/

theorem gitWf_cases (g : GitDependency) (h : gitRefCount g = 1) :
    (g.rev.isSome ∧ g.tag = none ∧ g.branch = none) ∨
    (g.rev = none ∧ g.tag.isSome ∧ g.branch = none) ∨
    (g.rev = none ∧ g.tag = none ∧ g.branch.isSome) := by
  obtain ⟨n, u, rv, tg, br⟩ := g
  unfold gitRefCount at h
  cases rv <;> cases tg <;> cases br <;> simp_all

theorem satisfiesDependency_some_true (env : Env) (c d : Dependency) (hwf : GitWf d) :
    satisfiesDependency env c d = some true ↔ SatisfiedBy env c d := by
  cases d with
  | registry ld =>
    cases c with
    | registry rc =>
      simp [satisfiesDependency, SatisfiedBy]
    | path pc => simp [satisfiesDependency, SatisfiedBy]
    | git gc => simp [satisfiesDependency, SatisfiedBy]
  | path ld =>
    cases c with
    | registry rc => simp [satisfiesDependency, SatisfiedBy]
    | git gc => simp [satisfiesDependency, SatisfiedBy]
    | path pc =>
      simp only [satisfiesDependency, SatisfiedBy]
      by_cases hpath : pc.path = ld.path
      · rw [if_neg (by simp [hpath])]
        cases hm : env.loadManifestVersion pc.path with
        | none =>
          constructor
          · intro h; cases h
          · rintro ⟨pc', hpc', hpath', mv', hm', hv'⟩
            cases hpc'
            rw [hm] at hm'
            cases hm'
        | some mv =>
          constructor
          · intro h
            simp only [Option.some.injEq, beq_iff_eq] at h
            exact ⟨pc, rfl, hpath, mv, hm, h.symm⟩
          · rintro ⟨pc', hpc', hpath', mv', hm', hv'⟩
            cases hpc'
            rw [hm] at hm'
            cases hm'
            simp [hv']
      · rw [if_pos (by simp [hpath])]
        constructor
        · intro h; cases h
        · rintro ⟨pc', hpc', hpath', -⟩
          cases hpc'
          exact absurd hpath' hpath
  | git ld =>
    cases c with
    | registry rc => simp [satisfiesDependency, SatisfiedBy]
    | path pc => simp [satisfiesDependency, SatisfiedBy]
    | git gc =>
      simp only [satisfiesDependency, SatisfiedBy]
      simp only [GitWf] at hwf
      constructor
      · intro h
        refine ⟨gc, rfl, ?_⟩
        by_cases h1 : gc.rev.isSome && ld.rev.isSome
        · rw [if_pos h1] at h
          simp only [Option.some.injEq, beq_iff_eq] at h
          simp only [Bool.and_eq_true, Option.isSome_iff_exists] at h1
          obtain ⟨⟨r, hr⟩, -⟩ := h1
          exact Or.inl ⟨r, hr, by rw [← h, hr]⟩
        · rw [if_neg h1] at h
          by_cases h2 : gc.tag.isSome && ld.tag.isSome
          · rw [if_pos h2] at h
            simp only [Option.some.injEq, beq_iff_eq] at h
            simp only [Bool.and_eq_true, Option.isSome_iff_exists] at h2
            obtain ⟨⟨t, ht⟩, -⟩ := h2
            exact Or.inr (Or.inl ⟨t, ht, by rw [← h, ht]⟩)
          · rw [if_neg h2] at h
            by_cases h3 : gc.branch.isSome && ld.branch.isSome
            · rw [if_pos h3] at h
              simp only [Option.some.injEq, beq_iff_eq] at h
              simp only [Bool.and_eq_true, Option.isSome_iff_exists] at h3
              obtain ⟨⟨b, hb⟩, -⟩ := h3
              exact Or.inr (Or.inr ⟨b, hb, by rw [← h, hb]⟩)
            · rw [if_neg h3] at h
              simp at h
      · rintro ⟨gc', hgc', hcase⟩
        cases hgc'
        rcases hcase with ⟨r, hgr, hlr⟩ | ⟨t, hgt, hlt⟩ | ⟨b, hgb, hlb⟩
        · have h1 : gc.rev.isSome && ld.rev.isSome := by
            simp [hgr, hlr]
          rw [if_pos h1]
          simp [hgr, hlr]
        · rcases gitWf_cases ld hwf with ⟨-, ht, -⟩ | ⟨hr, -, -⟩ | ⟨-, ht, -⟩
          · rw [ht] at hlt; cases hlt
          · rw [if_neg (by simp [hr]), if_pos (by simp [hgt, hlt])]
            simp [hgt, hlt]
          · rw [ht] at hlt; cases hlt
        · rcases gitWf_cases ld hwf with ⟨-, -, hb⟩ | ⟨-, -, hb⟩ | ⟨hr, ht, -⟩
          · rw [hb] at hlb; cases hlb
          · rw [hb] at hlb; cases hlb
          · rw [if_neg (by simp [hr]), if_neg (by simp [ht]),
              if_pos (by simp [hgb, hlb])]
            simp [hgb, hlb]

/-! ## The dependency / member loops agree with the claim's wording -/

theorem checkLockedDeps_some_true (env : Env) (current locked : List Dependency)
    (hnd : (current.map Dependency.name).Nodup)
    (hwf : ∀ d ∈ locked, GitWf d) :
    checkLockedDeps env current locked = some true ↔
      ∀ d ∈ locked, ∃ c ∈ current, c.name = d.name ∧ SatisfiedBy env c d := by
  induction locked with
  | nil => simp [checkLockedDeps]
  | cons d rest ih =>
    have hwfd : GitWf d := hwf d (List.mem_cons_self d rest)
    have ihr := ih (fun x hx => hwf x (List.mem_cons_of_mem d hx))
    rcases hl : lookupLast Dependency.name current d.name with _ | c
    · have hstep : checkLockedDeps env current (d :: rest) = some false := by
        simp [checkLockedDeps, hl]
      rw [hstep]
      constructor
      · intro h; cases h
      · intro hall
        obtain ⟨c, hcmem, hcname, -⟩ := hall d (List.mem_cons_self d rest)
        have hsome := lookupLast_of_mem Dependency.name current c hnd hcmem
        rw [hcname] at hsome
        rw [hsome] at hl
        cases hl
    · obtain ⟨hcmem, hcname⟩ := lookupLast_eq_some Dependency.name current d.name c hl
      rcases hs : satisfiesDependency env c d with _ | b
      · have hstep : checkLockedDeps env current (d :: rest) = none := by
          simp [checkLockedDeps, hl, hs]
        rw [hstep]
        constructor
        · intro h; cases h
        · intro hall
          obtain ⟨c', hcmem', hcname', hsat'⟩ := hall d (List.mem_cons_self d rest)
          have hl' := lookupLast_of_mem Dependency.name current c' hnd hcmem'
          rw [hcname'] at hl'
          rw [hl'] at hl
          have hcc := Option.some.inj hl
          subst hcc
          have := (satisfiesDependency_some_true env c' d hwfd).mpr hsat'
          rw [this] at hs
          cases hs
      · cases b with
        | false =>
          have hstep : checkLockedDeps env current (d :: rest) = some false := by
            simp [checkLockedDeps, hl, hs]
          rw [hstep]
          constructor
          · intro h; cases h
          · intro hall
            obtain ⟨c', hcmem', hcname', hsat'⟩ := hall d (List.mem_cons_self d rest)
            have hl' := lookupLast_of_mem Dependency.name current c' hnd hcmem'
            rw [hcname'] at hl'
            rw [hl'] at hl
            have hcc := Option.some.inj hl
            subst hcc
            have := (satisfiesDependency_some_true env c' d hwfd).mpr hsat'
            rw [this] at hs
            cases hs
        | true =>
          have hstep :
              checkLockedDeps env current (d :: rest) = checkLockedDeps env current rest := by
            simp [checkLockedDeps, hl, hs]
          rw [hstep, ihr]
          constructor
          · intro hall x hx
            rcases List.mem_cons.mp hx with rfl | hx'
            · exact ⟨c, hcmem, hcname,
                (satisfiesDependency_some_true env c x hwfd).mp hs⟩
            · exact hall x hx'
          · intro hall x hx
            exact hall x (List.mem_cons_of_mem d hx)

theorem compareDependencies_some_true (env : Env) (current locked : Snapshot)
    (hnd : DepNamesNodup current) (hwf : ∀ d ∈ locked.dependencies, GitWf d) :
    compareDependencies env current locked = some true ↔
      DependencySetMatches env current.dependencies locked.dependencies := by
  unfold compareDependencies DependencySetMatches
  by_cases hlen : current.dependencies.length = locked.dependencies.length
  · rw [if_neg (by simp [hlen])]
    rw [checkLockedDeps_some_true env _ _ hnd hwf]
    simp [hlen]
  · rw [if_pos hlen]
    constructor
    · intro h; cases h
    · rintro ⟨h, -⟩; exact absurd h hlen

theorem compareManifests_some_true (env : Env) (current locked : Snapshot)
    (hnd : DepNamesNodup current) (hwf : ∀ d ∈ locked.dependencies, GitWf d) :
    compareManifests env current locked = some true ↔
      SnapshotMatches env current locked := by
  unfold compareManifests SnapshotMatches
  by_cases h1 : current.name = locked.name
  · rw [if_neg (by simp [h1])]
    by_cases h2 : current.version = locked.version
    · rw [if_neg (by simp [h2])]
      rw [compareDependencies_some_true env current locked hnd hwf]
      simp [h1, h2]
    · rw [if_pos h2]
      constructor
      · intro h; cases h
      · rintro ⟨-, hv, -⟩; exact absurd hv h2
  · rw [if_pos h1]
    constructor
    · intro h; cases h
    · rintro ⟨hn, -, -⟩; exact absurd hn h1

theorem checkMembers_some_true (env : Env) (wmembers lmembers : List Snapshot)
    (hwnames : (wmembers.map Snapshot.name).Nodup)
    (hwnd : ∀ wm ∈ wmembers, DepNamesNodup wm)
    (hlwf : ∀ lm ∈ lmembers, DepsGitWf lm) :
    checkMembers env wmembers lmembers = some true ↔
      ∀ lm ∈ lmembers, ∃ wm ∈ wmembers, wm.name = lm.name ∧ SnapshotMatches env wm lm := by
  induction lmembers with
  | nil => simp [checkMembers]
  | cons lm rest ih =>
    have hwflm : DepsGitWf lm := hlwf lm (List.mem_cons_self lm rest)
    have ihr := ih (fun x hx => hlwf x (List.mem_cons_of_mem lm hx))
    rcases hl : lookupLast Snapshot.name wmembers lm.name with _ | wm
    · have hstep : checkMembers env wmembers (lm :: rest) = some false := by
        simp [checkMembers, hl]
      rw [hstep]
      constructor
      · intro h; cases h
      · intro hall
        obtain ⟨wm, hwmem, hwname, -⟩ := hall lm (List.mem_cons_self lm rest)
        have hsome := lookupLast_of_mem Snapshot.name wmembers wm hwnames hwmem
        rw [hwname] at hsome
        rw [hsome] at hl
        cases hl
    · obtain ⟨hwmem, hwname⟩ := lookupLast_eq_some Snapshot.name wmembers lm.name wm hl
      have hnd : DepNamesNodup wm := hwnd wm hwmem
      rcases hs : compareManifests env wm lm with _ | b
      · have hstep : checkMembers env wmembers (lm :: rest) = none := by
          simp [checkMembers, hl, hs]
        rw [hstep]
        constructor
        · intro h; cases h
        · intro hall
          obtain ⟨wm', hwmem', hwname', hsm'⟩ := hall lm (List.mem_cons_self lm rest)
          have hl' := lookupLast_of_mem Snapshot.name wmembers wm' hwnames hwmem'
          rw [hwname'] at hl'
          rw [hl'] at hl
          have hww := Option.some.inj hl
          subst hww
          have := (compareManifests_some_true env wm' lm (hwnd wm' hwmem') hwflm).mpr hsm'
          rw [this] at hs
          cases hs
      · cases b with
        | false =>
          have hstep : checkMembers env wmembers (lm :: rest) = some false := by
            simp [checkMembers, hl, hs]
          rw [hstep]
          constructor
          · intro h; cases h
          · intro hall
            obtain ⟨wm', hwmem', hwname', hsm'⟩ := hall lm (List.mem_cons_self lm rest)
            have hl' := lookupLast_of_mem Snapshot.name wmembers wm' hwnames hwmem'
            rw [hwname'] at hl'
            rw [hl'] at hl
            have hww := Option.some.inj hl
            subst hww
            have := (compareManifests_some_true env wm' lm (hwnd wm' hwmem') hwflm).mpr hsm'
            rw [this] at hs
            cases hs
        | true =>
          have hstep :
              checkMembers env wmembers (lm :: rest) = checkMembers env wmembers rest := by
            simp [checkMembers, hl, hs]
          rw [hstep, ihr]
          constructor
          · intro hall x hx
            rcases List.mem_cons.mp hx with rfl | hx'
            · exact ⟨wm, hwmem, hwname,
                (compareManifests_some_true env wm x hnd hwflm).mp hs⟩
            · exact hall x hx'
          · intro hall x hx
            exact hall x (List.mem_cons_of_mem lm hx)

/-- **C1.** `isLockfileValid(L, W)` returns `true` exactly when the
lockfile version is current, the root snapshot of `L` matches `W.root`
by name, version and dependency set, and the members of `L` are in
matching one-to-one correspondence with the members of `W`, where a
dependency set matches when counts agree and every locked dependency is
satisfied (registry: locked version satisfies the current range; path:
equal paths and the nested manifest's current version equals the locked
one; git: the same ref discriminator is present with equal value).
Hypotheses are the data-model invariants of §3: unique member names,
unique dependency names per manifest, exactly one git ref discriminator. -/
theorem isLockfileValid_iff_spec (env : Env) (lockfile : Lockfile) (workspace : Workspace)
    (hwm : (workspace.members.map Snapshot.name).Nodup)
    (hroot : DepNamesNodup workspace.root)
    (hmem : ∀ m ∈ workspace.members, DepNamesNodup m)
    (hgroot : DepsGitWf lockfile.workspace.root)
    (hgmem : ∀ m ∈ lockfile.workspace.members, DepsGitWf m) :
    isLockfileValid env lockfile workspace = some true ↔
      LockfileValidSpec env lockfile workspace := by
  unfold LockfileValidSpec
  cases hmeta : lockfile.metadata with
  | none =>
    have hstep : isLockfileValid env lockfile workspace = some false := by
      simp [isLockfileValid, hmeta]
    rw [hstep]
    constructor
    · intro h; cases h
    · rintro ⟨⟨m, hm, -⟩, -⟩; cases hm
  | some md =>
    by_cases hv : md.version = LOCKFILE_VERSION
    · rcases hcmp : compareManifests env workspace.root lockfile.workspace.root with _ | b
      · have hstep : isLockfileValid env lockfile workspace = none := by
          simp [isLockfileValid, hmeta, hv, hcmp]
        rw [hstep]
        constructor
        · intro h; cases h
        · rintro ⟨-, hsm, -, -⟩
          have := (compareManifests_some_true env _ _ hroot hgroot).mpr hsm
          rw [this] at hcmp
          cases hcmp
      · cases b with
        | false =>
          have hstep : isLockfileValid env lockfile workspace = some false := by
            simp [isLockfileValid, hmeta, hv, hcmp]
          rw [hstep]
          constructor
          · intro h; cases h
          · rintro ⟨-, hsm, -, -⟩
            have := (compareManifests_some_true env _ _ hroot hgroot).mpr hsm
            rw [this] at hcmp
            cases hcmp
        | true =>
          have hsm : SnapshotMatches env workspace.root lockfile.workspace.root :=
            (compareManifests_some_true env _ _ hroot hgroot).mp hcmp
          by_cases hlen :
              lockfile.workspace.members.length = workspace.members.length
          · have hstep : isLockfileValid env lockfile workspace =
                checkMembers env workspace.members lockfile.workspace.members := by
              simp [isLockfileValid, hmeta, hv, hcmp, hlen]
            rw [hstep, checkMembers_some_true env _ _ hwm hmem hgmem]
            constructor
            · intro h
              exact ⟨⟨md, rfl, hv⟩, hsm, hlen, h⟩
            · rintro ⟨-, -, -, h⟩; exact h
          · have hstep : isLockfileValid env lockfile workspace = some false := by
              simp [isLockfileValid, hmeta, hv, hcmp, hlen]
            rw [hstep]
            constructor
            · intro h; cases h
            · rintro ⟨-, -, hlen', -⟩; exact absurd hlen' hlen
    · have hstep : isLockfileValid env lockfile workspace = some false := by
        simp [isLockfileValid, hmeta, hv]
      rw [hstep]
      constructor
      · intro h; cases h
      · rintro ⟨⟨m, hm, hver⟩, -⟩
        have := Option.some.inj hm
        subst this
        exact absurd hver hv

/-! ## Concrete validity-check instance (registry dependency `bar ^1.0.0`
locked at `1.1.0`, cf. scenario 2 of §8) -/

def envC1 : Env :=
  { satisfiesSemver := fun v r => v == "1.1.0" && r == "^1.0.0"
    loadManifestVersion := fun _ => none }

def wsC1 : Workspace :=
  { root :=
      { name := "proj", version := "1.0.0"
        dependencies :=
          [.registry { name := "bar", version := "^1.0.0", registry := "default" }] }
    members := [] }

def lfC1 : Lockfile :=
  { metadata := some ⟨"1"⟩
    workspace :=
      { root :=
          { name := "proj", version := "1.0.0"
            dependencies :=
              [.registry { name := "bar", version := "1.1.0", registry := "default" }] }
        members := [] }
    packages := [] }

/-- Witness for C1: the equivalence instantiated at a concrete
workspace and lockfile whose single registry dependency is satisfied. -/
theorem isLockfileValid_iff_spec_witness :
    isLockfileValid envC1 lfC1 wsC1 = some true := by
  refine (isLockfileValid_iff_spec envC1 lfC1 wsC1
      (by simp [wsC1])
      (by simp [DepNamesNodup, wsC1])
      (by intro m hm; simp [wsC1] at hm)
      (by intro d hd; simp [lfC1] at hd; subst hd; trivial)
      (by intro m hm; simp [lfC1] at hm)).mpr ?_
  refine ⟨⟨⟨"1"⟩, rfl, rfl⟩, ⟨rfl, rfl, ⟨rfl, ?_⟩⟩, rfl, ?_⟩
  · intro d hd
    simp only [lfC1, List.mem_singleton] at hd
    subst hd
    refine ⟨.registry { name := "bar", version := "^1.0.0", registry := "default" },
      by simp [wsC1], rfl, ?_⟩
    exact ⟨{ name := "bar", version := "^1.0.0", registry := "default" }, rfl, by decide⟩
  · intro lm hlm
    simp [lfC1] at hlm

/-! ## Lockfile codec: `toToml` / `fromToml` (C2, C3, C6)

The TOML text emitter/parser is out of scope by §1 ("assumed to
round-trip a generic tree"), so the codec is embedded at the TOML-tree
level (`TomlDoc`).  Helpers from `src/utils/path` and
`src/sources/registration` are not under `src/` and are modelled from
the spec where noted. -/

/-- Node's `path.join(dir, value)` for the POSIX paths used here. -/
def joinPath (dir value : String) : String := dir ++ "/" ++ value

/-- Modelled from the spec: `relative` from the path utilities (§2 C1),
the POSIX-relative path from `dir` to `value`. -/
def relativePath (dir value : String) : String :=
  if (dir ++ "/").isPrefixOf value then value.drop (dir.length + 1) else value

/-- Modelled from the spec: `trailing` from the path utilities — §4.5
stores path sources "as a POSIX-relative path ... with a trailing slash". -/
def trailing (p : String) : String := if p.endsWith "/" then p else p ++ "/"

/-- Structural split of a character list at every occurrence of `c`
(the single-character `split` used on SourceURIs). -/
def splitOnChar (c : Char) : List Char → List (List Char)
  | [] => [[]]
  | a :: rest =>
    match splitOnChar c rest with
    | [] => [[a]]
    | g :: gs => if a = c then [] :: g :: gs else (a :: g) :: gs

/-- Modelled from the spec: `getSourceParts` from `src/sources/registration`
(not under src/) splits the §3 SourceURI `"{type}+{value}[#{details}]"`. -/
def getSourceParts (source : String) : String × String × Option String :=
  match (splitOnChar '+' source.data).map String.mk with
  | [] => ("", "", none)
  | t :: rest =>
    match (splitOnChar '#' ("+".intercalate rest).data).map String.mk with
    | [] => (t, "", none)
    | v :: [] => (t, v, none)
    | v :: ds => (t, v, some ("#".intercalate ds))

/-- Modelled from the spec: `getRegistrationSource` rebuilds the §3
SourceURI from its parts. -/
def getRegistrationSource (ty value : String) (details : Option String) : String :=
  ty ++ "+" ++ value ++ (match details with | some d => "#" ++ d | none => "")

/-- Modelled from the spec: `getRegistrationId(name, version)` from
`src/sources/registration` (not under src/); §4.5 reconstructs ids from
name and version when reading, so it is the `"{name} {version}"` part of
the §3 id format. -/
def getRegistrationId (name version : String) : String := name ++ " " ++ version

/-- Modelled from the spec: `toDependency` from `src/sources/registration`
(not under src/) — the "placeholder dependency" of §4.5 derived from a
registered package, pinned at the registered version. -/
def toDependency (name version source : String) : Dependency :=
  if (getSourceParts source).1 = "path" then
    .path { name := name, path := (getSourceParts source).2.1, version := some version }
  else if (getSourceParts source).1 = "git" then
    .git { name := name, git := (getSourceParts source).2.1,
           rev := (getSourceParts source).2.2, tag := none, branch := none }
  else
    .registry { name := name, version := version, registry := "default" }

/-- `prepareSource` from the lockfile module: path sources become
relative (with trailing slash), everything else passes through. -/
def prepareSource (source dir : String) : String :=
  if (getSourceParts source).1 ≠ "path" then source
  else
    getRegistrationSource (getSourceParts source).1
      (trailing (relativePath dir (getSourceParts source).2.1))
      (getSourceParts source).2.2

/-- `getSource` from the lockfile module: path sources are rehydrated to
absolute against the project dir, everything else passes through. -/
def getSource (source dir : String) : String :=
  if (getSourceParts source).1 ≠ "path" then source
  else
    getRegistrationSource (getSourceParts source).1
      (joinPath dir (getSourceParts source).2.1)
      (getSourceParts source).2.2

/-- Sequential effectful map (the codec's `.map` over arrays, where a
thrown `ok()` assertion aborts the whole conversion). -/
def mapE {α β : Type} (f : α → Except String β) : List α → Except String (List β)
  | [] => Except.ok []
  | a :: l => do
    let b ← f a
    let bs ← mapE f l
    return b :: bs

/-- `toDependencyId(dependency, packages, dir)` from the lockfile module:
`"{name} {version} {source}"`, with path sources relativised.
`getRegistration` (src/resolve, not under src/) is modelled from the
spec: it finds the graph registration carrying the dependency's name. -/
def toDependencyId (dependency : Dependency) (packages : List Registration)
    (dir : String) : Except String String :=
  match packages.find? (fun r => r.name == dependency.name) with
  | none => Except.error "No package found for dependency"
  | some registration =>
    Except.ok (dependency.name ++ " " ++ registration.version ++ " " ++
      prepareSource registration.source dir)

/-- Lockfile-TOML form of a snapshot: dependencies as id strings. -/
structure TomlSnapshot where
  name : String
  version : String
  dependencies : List String
  deriving Repr, DecidableEq

/-- Lockfile-TOML form of a `[[package]]` entry. -/
structure TomlPackage where
  name : String
  version : String
  source : String
  dependencies : List String
  deriving Repr, DecidableEq

/-- The lockfile TOML document as a tree (`none` models an absent key). -/
structure TomlDoc where
  metadata : Option LockfileMetadata
  root : Option TomlSnapshot
  members : Option (List TomlSnapshot)
  packages : Option (List TomlPackage)
  deriving Repr, DecidableEq

/-- `prepareManifest(manifest, packages, dir)` from the lockfile module. -/
def prepareManifest (manifest : Snapshot) (packages : List Registration)
    (dir : String) : Except String TomlSnapshot := do
  let deps ← mapE (fun d => toDependencyId d packages dir) manifest.dependencies
  return { name := manifest.name, version := manifest.version, dependencies := deps }

/-- The JS `Array.prototype.sort` call of `toToml` with comparator
`(a, b) => a.name < b.name ? -1 : a.name > b.name ? 1 : 0` (stable). -/
def insertReg (r : Registration) : List Registration → List Registration
  | [] => [r]
  | x :: xs => if r.name < x.name then r :: x :: xs else x :: insertReg r xs

def sortByName (l : List Registration) : List Registration := l.foldr insertReg []

/-- `toToml(lockfile, dir)` from the lockfile module, at tree level:
`[metadata]` with the current LOCKFILE_VERSION, `[root]`, `[[members]]`
in manifest order, `[[package]]` sorted by name, dependencies as
`"{name} {version} {source}"` ids, path sources made relative. -/
def toTomlDoc (lockfile : Lockfile) (dir : String) : Except String TomlDoc := do
  let root ← prepareManifest lockfile.workspace.root lockfile.packages dir
  let members ← mapE (fun m => prepareManifest m lockfile.packages dir)
    lockfile.workspace.members
  let packages ← mapE (fun registration => do
      let deps ← mapE (fun d => toDependencyId d lockfile.packages dir)
        registration.dependencies
      return ({ name := registration.name, version := registration.version,
                source := prepareSource registration.source dir,
                dependencies := deps } : TomlPackage))
    (sortByName lockfile.packages)
  return { metadata := some ⟨LOCKFILE_VERSION⟩, root := some root,
           members := some members, packages := some packages }

/-- First-pass registration of `fromToml`: dependencies still id strings. -/
structure RawRegistration where
  id : String
  name : String
  version : String
  source : String
  dependencies : List String
  deriving Repr, DecidableEq

/-- JS `id.split(' ', 1)[0]`: the characters before the first space. -/
def firstToken (s : String) : String := String.mk (s.data.takeWhile (fun c => c ≠ ' '))

/-- `getDependency(id, byName)` from the lockfile module; `byName` is the
JS `Map` (later `set` wins, modelled by prepending entries). -/
def getDependencyById (id : String) (byName : List (String × Dependency)) :
    Except String Dependency :=
  match byName.find? (fun p => p.1 == firstToken id) with
  | none => Except.error "Package not found in lockfile"
  | some p => Except.ok p.2

/-- `toManifest(value, byName)` from the lockfile module. -/
def toManifest (value : TomlSnapshot) (byName : List (String × Dependency)) :
    Except String Snapshot :=
  if value.name.isEmpty || value.version.isEmpty then
    Except.error "Invalid manifest in lockfile"
  else do
    let deps ← mapE (fun id => getDependencyById id byName) value.dependencies
    return { name := value.name, version := value.version, dependencies := deps }

/-- `fromToml(toml, dir)` from the lockfile module, at tree level: assert
`[root]` is present, first pass over packages (building the by-name map
of placeholder dependencies, absolutising path sources), then hydrate
package and snapshot dependencies by id. `.error` models a thrown
`ok()` assertion. -/
def fromTomlDoc (parsed : TomlDoc) (dir : String) : Except String Lockfile := do
  match parsed.root with
  | none => Except.error "vba-block.lock is missing [root] field"
  | some root0 =>
    let firstPass ← mapE (fun (value : TomlPackage) =>
        if value.name.isEmpty || value.version.isEmpty || value.source.isEmpty then
          Except.error "Invalid package in lockfile"
        else
          Except.ok ({ id := getRegistrationId value.name value.version,
                       name := value.name, version := value.version,
                       source := getSource value.source dir,
                       dependencies := value.dependencies } : RawRegistration))
      (parsed.packages.getD [])
    let byName := firstPass.foldl
      (fun acc r => (r.name, toDependency r.name r.version r.source) :: acc) []
    let packages ← mapE (fun (r : RawRegistration) => do
        let deps ← mapE (fun id => getDependencyById id byName) r.dependencies
        return ({ id := r.id, name := r.name, version := r.version,
                  source := r.source, dependencies := deps } : Registration))
      firstPass
    let root ← toManifest root0 byName
    let members ← mapE (fun m => toManifest m byName) (parsed.members.getD [])
    return { metadata := parsed.metadata,
             workspace := { root := root, members := members },
             packages := packages }

/-- The lockfile's on-disk name, `join(dir, 'vba-block.lock')` in both
`readLockfile` and `writeLockfile`. -/
def lockfileFileName : String := "vba-block.lock"

/-- The project filesystem visible to `readLockfile`: contents by path
(`none` = file does not exist). -/
structure FileSystem where
  contents : String → Option String

/-- The `try`-block of `readLockfile(dir)`: absent file is `null`, a
parse failure (`parse` returning `none`) or `fromToml` assertion throws. -/
def readLockfileBody (parse : String → Option TomlDoc) (fs : FileSystem)
    (dir : String) : Except String (Option Lockfile) := do
  match fs.contents (joinPath dir lockfileFileName) with
  | none => return none
  | some toml =>
    match parse toml with
    | none => Except.error "TOML parse error"
    | some doc => do
      let lf ← fromTomlDoc doc dir
      return some lf

/-- `readLockfile(dir)`: the surrounding `catch` turns every error into
"no lockfile" (`none`). -/
def readLockfile (parse : String → Option TomlDoc) (fs : FileSystem)
    (dir : String) : Option Lockfile :=
  match readLockfileBody parse fs dir with
  | .ok v => v
  | .error _ => none

/-- `writeLockfile(dir, lockfile)`: the written path and tree; `.error`
models the `lockfile-write-failed` CliError. -/
def writeLockfile (dir : String) (lockfile : Lockfile) :
    Except String (String × TomlDoc) :=
  match toTomlDoc lockfile dir with
  | .ok doc => .ok (joinPath dir lockfileFileName, doc)
  | .error _ => .error "lockfile-write-failed"

/-! ## C3: readLockfile swallows every error -/

/-- **C3.** `readLockfile` is total (the `catch` turns every thrown
error into "no lockfile"): if the file does not exist, or the TOML
parser fails, or `fromToml` validation fails, the result is `none`
rather than a propagated error. -/
theorem readLockfile_swallows_errors (parse : String → Option TomlDoc)
    (fs : FileSystem) (dir : String) :
    ((fs.contents (joinPath dir lockfileFileName)).isNone →
      readLockfile parse fs dir = none) ∧
    (∀ s, fs.contents (joinPath dir lockfileFileName) = some s → parse s = none →
      readLockfile parse fs dir = none) ∧
    (∀ s doc e, fs.contents (joinPath dir lockfileFileName) = some s →
      parse s = some doc → fromTomlDoc doc dir = Except.error e →
      readLockfile parse fs dir = none) := by
  refine ⟨?_, ?_, ?_⟩
  · intro h
    rw [Option.isNone_iff_eq_none] at h
    simp [readLockfile, readLockfileBody, h, pure, Except.pure]
  · intro s hs hp
    simp [readLockfile, readLockfileBody, hs, hp]
  · intro s doc e hs hp hf
    simp [readLockfile, readLockfileBody, hs, hp, hf]

def parseC3 : String → Option TomlDoc := fun _ => some ⟨none, none, none, none⟩

def fsC3 : FileSystem :=
  ⟨fun p => if p = "p/vba-block.lock" then some "not really toml" else none⟩

/-- Witness for C3: a present lockfile whose document lacks `[root]` is
read as "no lockfile". -/
theorem readLockfile_swallows_errors_witness : readLockfile parseC3 fsC3 "p" = none :=
  (readLockfile_swallows_errors parseC3 fsC3 "p").2.2 "not really toml"
    ⟨none, none, none, none⟩ "vba-block.lock is missing [root] field"
    (by decide) rfl rfl

/-! ## C6: the lockfile lives at `dir/vba-block.lock`, version "1" -/

theorem exceptBind_ok {α β : Type} {x : Except String α} {f : α → Except String β}
    {b : β} (h : x >>= f = .ok b) : ∃ a, x = .ok a ∧ f a = .ok b := by
  cases x with
  | error e => exact absurd h (by simp [Bind.bind, Except.bind])
  | ok a => exact ⟨a, rfl, h⟩

theorem toTomlDoc_metadata (lf : Lockfile) (dir : String) (doc : TomlDoc)
    (h : toTomlDoc lf dir = .ok doc) : doc.metadata = some ⟨LOCKFILE_VERSION⟩ := by
  unfold toTomlDoc at h
  obtain ⟨root, -, h⟩ := exceptBind_ok h
  obtain ⟨members, -, h⟩ := exceptBind_ok h
  obtain ⟨packages, -, h⟩ := exceptBind_ok h
  cases h
  rfl

def fsC6 : FileSystem :=
  ⟨fun p => if p = "p/project.lock" then some "lockfile text" else none⟩

def parseC6 : String → Option TomlDoc :=
  fun _ => some ⟨some ⟨"1"⟩, some ⟨"proj", "1.0.0", []⟩, some [], some []⟩

def lfC6 : Lockfile :=
  { metadata := some ⟨"1"⟩
    workspace := { root := ⟨"proj", "1.0.0", []⟩, members := [] }
    packages := [] }

/-- **C6 counterexample.** The lockfile name is `vba-block.lock`, not
`project.lock`: with a perfectly parseable lockfile at `p/project.lock`
and nothing at `p/vba-block.lock`, `readLockfile` reports no lockfile,
and `writeLockfile` targets `p/vba-block.lock`. -/
theorem lockfile_filename_counterexample :
    lockfileFileName ≠ "project.lock" ∧
    readLockfile parseC6 fsC6 "p" = none ∧
    (writeLockfile "p" lfC6).map Prod.fst = .ok "p/vba-block.lock" := by
  refine ⟨by decide, by rfl, by rfl⟩

/-- **C6 (amended).** `readLockfile` and `writeLockfile` operate on the
file `vba-block.lock` in the project directory (readLockfile consults
the filesystem only at `dir/vba-block.lock`, writeLockfile writes
there), and the lockfile version constant written into `[metadata]` and
accepted by the validity check is the string "1". -/
theorem lockfile_filename_amended :
    LOCKFILE_VERSION = "1" ∧
    (∀ dir lf path doc, writeLockfile dir lf = .ok (path, doc) →
      path = joinPath dir lockfileFileName ∧ doc.metadata = some ⟨"1"⟩) ∧
    (∀ parse fs₁ fs₂ dir,
      fs₁.contents (joinPath dir lockfileFileName) =
        fs₂.contents (joinPath dir lockfileFileName) →
      readLockfile parse fs₁ dir = readLockfile parse fs₂ dir) ∧
    (∀ env lf ws m, lf.metadata = some m → m.version ≠ "1" →
      isLockfileValid env lf ws = some false) := by
  refine ⟨rfl, ?_, ?_, ?_⟩
  · intro dir lf path doc h
    unfold writeLockfile at h
    cases htd : toTomlDoc lf dir with
    | error e => rw [htd] at h; cases h
    | ok d =>
      rw [htd] at h
      obtain ⟨h1, h2⟩ := Prod.mk.inj (Except.ok.inj h)
      subst h1
      subst h2
      exact ⟨rfl, toTomlDoc_metadata lf dir _ htd⟩
  · intro parse fs₁ fs₂ dir h
    unfold readLockfile readLockfileBody
    rw [h]
  · intro env lf ws m hm hv
    simp [isLockfileValid, hm, hv, LOCKFILE_VERSION]

def lfBadVer : Lockfile :=
  { metadata := some ⟨"2"⟩
    workspace := { root := ⟨"proj", "1.0.0", []⟩, members := [] }
    packages := [] }

/-- Witness for C6 (amended): a lockfile with metadata version "2" is
rejected by the validity check. -/
theorem lockfile_filename_amended_witness :
    LOCKFILE_VERSION = "1" ∧ isLockfileValid envC1 lfBadVer wsC1 = some false :=
  ⟨lockfile_filename_amended.1,
   lockfile_filename_amended.2.2.2 envC1 lfBadVer wsC1 ⟨"2"⟩ rfl (by decide)⟩

/-! ## C2: the lockfile round trip

Abbreviations for what the codec produces on a well-formed lockfile. -/

/-- The id `toDependencyId` produces for a dependency (total form). -/
def depId (packages : List Registration) (d : Dependency) : String :=
  match packages.find? (fun r => r.name == d.name) with
  | none => ""
  | some r => d.name ++ " " ++ r.version ++ " " ++ r.source

def tomlSnapOf (packages : List Registration) (s : Snapshot) : TomlSnapshot :=
  ⟨s.name, s.version, s.dependencies.map (depId packages)⟩

def tomlPkgOf (packages : List Registration) (r : Registration) : TomlPackage :=
  ⟨r.name, r.version, r.source, r.dependencies.map (depId packages)⟩

def rawOf (packages : List Registration) (r : Registration) : RawRegistration :=
  ⟨r.id, r.name, r.version, r.source, r.dependencies.map (depId packages)⟩

def byNameOf (packages : List Registration) : List (String × Dependency) :=
  (packages.map (fun r => (r.name, toDependency r.name r.version r.source))).reverse

/-- The TOML tree `toToml` produces for a well-formed lockfile. -/
def docOf (lockfile : Lockfile) : TomlDoc :=
  ⟨some ⟨LOCKFILE_VERSION⟩,
   some (tomlSnapOf lockfile.packages lockfile.workspace.root),
   some (lockfile.workspace.members.map (tomlSnapOf lockfile.packages)),
   some (lockfile.packages.map (tomlPkgOf lockfile.packages))⟩

/-- Well-formedness of a resolver-produced registration for the round
trip: id reconstructible from name and version, truthy fields, a
non-path source (path sources are relativised and re-absolutised, which
changes the stored text), and a space-free name (ids are split on the
first space when read back). -/
@[reducible] def RegistrationWf (r : Registration) : Prop :=
  r.id = getRegistrationId r.name r.version ∧
  r.name.isEmpty = false ∧ r.version.isEmpty = false ∧ r.source.isEmpty = false ∧
  (getSourceParts r.source).1 ≠ "path" ∧
  ∀ c ∈ r.name.data, c ≠ ' '

/-- Every dependency is the §4.5 placeholder of the graph registration
carrying its name (what hydration on read produces). -/
@[reducible] def PlaceholderDeps (packages : List Registration) (deps : List Dependency) : Prop :=
  ∀ d ∈ deps, ∃ r ∈ packages, r.name = d.name ∧ d = toDependency r.name r.version r.source

@[reducible] def SnapshotWf (packages : List Registration) (s : Snapshot) : Prop :=
  s.name.isEmpty = false ∧ s.version.isEmpty = false ∧
  PlaceholderDeps packages s.dependencies

/-! ### Helper lemmas -/

theorem ok_bind {α β : Type} (a : α) (f : α → Except String β) :
    (Except.ok a >>= f : Except String β) = f a := rfl

theorem find?_key_unique {α : Type} (key : α → String) (l : List α) (r : α)
    (hnd : (l.map key).Nodup) (hr : r ∈ l) :
    l.find? (fun x => key x == key r) = some r := by
  induction l with
  | nil => cases hr
  | cons a l ih =>
    rw [List.map_cons, List.nodup_cons] at hnd
    rcases List.mem_cons.mp hr with rfl | hr'
    · rw [List.find?_cons_of_pos _ (by simp)]
    · have hne : key a ≠ key r := by
        intro he
        exact hnd.1 (he ▸ List.mem_map_of_mem key hr')
      rw [List.find?_cons_of_neg _ (by simp [hne])]
      exact ih hnd.2 hr'

theorem mapE_ok_of_all {α β : Type} (f : α → Except String β) (g : α → β)
    (l : List α) (h : ∀ a ∈ l, f a = .ok (g a)) : mapE f l = .ok (l.map g) := by
  induction l with
  | nil => rfl
  | cons a l ih =>
    have ha := h a (List.mem_cons_self a l)
    have hl := ih (fun x hx => h x (List.mem_cons_of_mem a hx))
    simp only [mapE, ha, hl, ok_bind]
    rfl

theorem mapE_map_ok {α β : Type} (f : β → Except String α) (g : α → β)
    (l : List α) (h : ∀ a ∈ l, f (g a) = .ok a) : mapE f (l.map g) = .ok l := by
  induction l with
  | nil => rfl
  | cons a l ih =>
    have ha := h a (List.mem_cons_self a l)
    have hl := ih (fun x hx => h x (List.mem_cons_of_mem a hx))
    simp only [List.map_cons, mapE, ha, hl, ok_bind]
    rfl

theorem insertReg_head (r : Registration) (l : List Registration)
    (h : ∀ x ∈ l, r.name < x.name) : insertReg r l = r :: l := by
  cases l with
  | nil => rfl
  | cons x xs => rw [insertReg, if_pos (h x (List.mem_cons_self x xs))]

theorem sortByName_sorted (l : List Registration)
    (h : l.Pairwise (fun a b => a.name < b.name)) : sortByName l = l := by
  induction l with
  | nil => rfl
  | cons a l ih =>
    rw [List.pairwise_cons] at h
    have hstep : sortByName (a :: l) = insertReg a (sortByName l) := rfl
    rw [hstep, ih h.2, insertReg_head a l h.1]

theorem sorted_names_nodup (l : List Registration)
    (h : l.Pairwise (fun a b => a.name < b.name)) :
    (l.map Registration.name).Nodup := by
  have hp : (l.map Registration.name).Pairwise (· ≠ ·) := by
    rw [List.pairwise_map]
    exact h.imp ne_of_lt
  exact hp

theorem takeWhile_append_all {α : Type} (p : α → Bool) (l₁ l₂ : List α)
    (h : ∀ a ∈ l₁, p a = true) :
    (l₁ ++ l₂).takeWhile p = l₁ ++ l₂.takeWhile p := by
  induction l₁ with
  | nil => rfl
  | cons a l ih =>
    simp [List.takeWhile_cons, h a (List.mem_cons_self a l),
      ih (fun x hx => h x (List.mem_cons_of_mem a hx))]

theorem string_append_data (a b : String) : (a ++ b).data = a.data ++ b.data := rfl

theorem firstToken_append (name rest : String) (h : ∀ c ∈ name.data, c ≠ ' ') :
    firstToken (name ++ " " ++ rest) = name := by
  unfold firstToken
  have hdata : (name ++ " " ++ rest).data = name.data ++ (' ' :: rest.data) := by
    rw [string_append_data, string_append_data]
    simp
  rw [hdata, takeWhile_append_all _ _ _ (fun c hc => by simp [h c hc])]
  simp [List.takeWhile_cons]

theorem prepareSource_not_path (source dir : String)
    (h : (getSourceParts source).1 ≠ "path") : prepareSource source dir = source := by
  unfold prepareSource
  rw [if_pos h]

theorem getSource_not_path (source dir : String)
    (h : (getSourceParts source).1 ≠ "path") : getSource source dir = source := by
  unfold getSource
  rw [if_pos h]

theorem foldl_prepend {α β : Type} (f : α → β) (l : List α) (acc : List β) :
    l.foldl (fun acc r => f r :: acc) acc = (l.map f).reverse ++ acc := by
  induction l generalizing acc with
  | nil => simp
  | cons a l ih => simp [List.foldl_cons, ih]

/-! ### Per-dependency round-trip lemmas -/

theorem byNameOf_find (packages : List Registration) (r : Registration)
    (hnd : (packages.map Registration.name).Nodup) (hr : r ∈ packages) :
    (byNameOf packages).find? (fun p => p.1 == r.name) =
      some (r.name, toDependency r.name r.version r.source) := by
  have hmem : (r.name, toDependency r.name r.version r.source) ∈
      packages.map (fun x => (x.name, toDependency x.name x.version x.source)) :=
    List.mem_map_of_mem _ hr
  have hnd' : ((packages.map
      (fun x => (x.name, toDependency x.name x.version x.source))).map Prod.fst).Nodup := by
    rw [List.map_map]
    exact hnd
  exact lookupLast_of_mem Prod.fst _ (r.name, toDependency r.name r.version r.source)
    hnd' hmem

theorem toDependencyId_ok (dir : String) (packages : List Registration)
    (hnd : (packages.map Registration.name).Nodup)
    (hreg : ∀ r ∈ packages, RegistrationWf r) (d : Dependency)
    (hd : ∃ r ∈ packages, r.name = d.name ∧ d = toDependency r.name r.version r.source) :
    toDependencyId d packages dir = .ok (depId packages d) := by
  obtain ⟨r, hr, hname, -⟩ := hd
  have hfind : packages.find? (fun x => x.name == d.name) = some r := by
    have h0 := find?_key_unique Registration.name packages r hnd hr
    rw [hname] at h0
    exact h0
  have hps := prepareSource_not_path r.source dir (hreg r hr).2.2.2.2.1
  unfold toDependencyId depId
  rw [hfind]
  exact congrArg Except.ok (by rw [hps])

theorem getDependencyById_ok (packages : List Registration)
    (hnd : (packages.map Registration.name).Nodup)
    (hreg : ∀ r ∈ packages, RegistrationWf r) (d : Dependency)
    (hd : ∃ r ∈ packages, r.name = d.name ∧ d = toDependency r.name r.version r.source) :
    getDependencyById (depId packages d) (byNameOf packages) = .ok d := by
  obtain ⟨r, hr, hname, hdep⟩ := hd
  have hfind : packages.find? (fun x => x.name == d.name) = some r := by
    have h0 := find?_key_unique Registration.name packages r hnd hr
    rw [hname] at h0
    exact h0
  have hdepId : depId packages d = d.name ++ " " ++ (r.version ++ " " ++ r.source) := by
    unfold depId
    rw [hfind]
    have : d.name ++ " " ++ r.version ++ " " ++ r.source =
        d.name ++ " " ++ (r.version ++ " " ++ r.source) := by
      have h1 : (d.name ++ " " ++ r.version ++ " " ++ r.source).data =
          (d.name ++ " " ++ (r.version ++ " " ++ r.source)).data := by
        simp [string_append_data]
      exact congrArg String.mk h1
    exact this
  have hnospace : ∀ c ∈ d.name.data, c ≠ ' ' := by
    rw [← hname]
    exact (hreg r hr).2.2.2.2.2
  have htok : firstToken (depId packages d) = d.name := by
    rw [hdepId]
    exact firstToken_append d.name _ hnospace
  unfold getDependencyById
  rw [htok, ← hname, byNameOf_find packages r hnd hr]
  exact congrArg Except.ok hdep.symm

theorem toManifest_ok (packages : List Registration) (s : Snapshot)
    (hnd : (packages.map Registration.name).Nodup)
    (hreg : ∀ r ∈ packages, RegistrationWf r)
    (hs : SnapshotWf packages s) :
    toManifest (tomlSnapOf packages s) (byNameOf packages) = .ok s := by
  obtain ⟨hn, hv, hdeps⟩ := hs
  unfold toManifest tomlSnapOf
  rw [if_neg (by simp [hn, hv])]
  have hmap : mapE (fun id => getDependencyById id (byNameOf packages))
      (s.dependencies.map (depId packages)) = .ok s.dependencies :=
    mapE_map_ok _ _ _ (fun d hd => getDependencyById_ok packages hnd hreg d (hdeps d hd))
  simp only [hmap, ok_bind]
  rfl

theorem prepareManifest_ok (dir : String) (packages : List Registration) (s : Snapshot)
    (hnd : (packages.map Registration.name).Nodup)
    (hreg : ∀ r ∈ packages, RegistrationWf r)
    (hs : PlaceholderDeps packages s.dependencies) :
    prepareManifest s packages dir = .ok (tomlSnapOf packages s) := by
  unfold prepareManifest tomlSnapOf
  have hmap : mapE (fun d => toDependencyId d packages dir) s.dependencies =
      .ok (s.dependencies.map (depId packages)) :=
    mapE_ok_of_all _ _ _ (fun d hd => toDependencyId_ok dir packages hnd hreg d (hs d hd))
  simp only [hmap, ok_bind]
  rfl

/-! ### The round trip itself -/

/-- What the first pass of `fromToml` makes of one TOML package entry. -/
def rawFromToml (dir : String) (value : TomlPackage) : RawRegistration :=
  ⟨getRegistrationId value.name value.version, value.name, value.version,
   getSource value.source dir, value.dependencies⟩

theorem toTomlDoc_ok (lockfile : Lockfile) (dir : String)
    (hsorted : lockfile.packages.Pairwise (fun a b => a.name < b.name))
    (hreg : ∀ r ∈ lockfile.packages, RegistrationWf r)
    (hpdeps : ∀ r ∈ lockfile.packages,
      PlaceholderDeps lockfile.packages r.dependencies)
    (hroot : PlaceholderDeps lockfile.packages lockfile.workspace.root.dependencies)
    (hmem : ∀ m ∈ lockfile.workspace.members,
      PlaceholderDeps lockfile.packages m.dependencies) :
    toTomlDoc lockfile dir = .ok (docOf lockfile) := by
  have hnd := sorted_names_nodup _ hsorted
  have hrootT := prepareManifest_ok dir lockfile.packages lockfile.workspace.root
    hnd hreg hroot
  have hmemT : mapE (fun m => prepareManifest m lockfile.packages dir)
      lockfile.workspace.members
      = .ok (lockfile.workspace.members.map (tomlSnapOf lockfile.packages)) :=
    mapE_ok_of_all _ _ _ (fun m hm => prepareManifest_ok dir _ m hnd hreg (hmem m hm))
  have hpkgT : mapE (fun registration => do
        let deps ← mapE (fun d => toDependencyId d lockfile.packages dir)
          registration.dependencies
        return ({ name := registration.name, version := registration.version,
                  source := prepareSource registration.source dir,
                  dependencies := deps } : TomlPackage))
      (sortByName lockfile.packages)
      = .ok (lockfile.packages.map (tomlPkgOf lockfile.packages)) := by
    rw [sortByName_sorted _ hsorted]
    apply mapE_ok_of_all
    intro r hr
    have hdeps : mapE (fun d => toDependencyId d lockfile.packages dir) r.dependencies
        = .ok (r.dependencies.map (depId lockfile.packages)) :=
      mapE_ok_of_all _ _ _
        (fun d hd => toDependencyId_ok dir _ hnd hreg d (hpdeps r hr d hd))
    simp only [hdeps, ok_bind,
      prepareSource_not_path r.source dir (hreg r hr).2.2.2.2.1]
    rfl
  unfold toTomlDoc
  rw [hrootT]
  simp only [ok_bind]
  rw [hmemT]
  simp only [ok_bind]
  rw [hpkgT]
  simp only [ok_bind]
  rfl

theorem fromTomlDoc_ok (lockfile : Lockfile) (dir : String)
    (hmeta : lockfile.metadata = some ⟨LOCKFILE_VERSION⟩)
    (hsorted : lockfile.packages.Pairwise (fun a b => a.name < b.name))
    (hreg : ∀ r ∈ lockfile.packages, RegistrationWf r)
    (hpdeps : ∀ r ∈ lockfile.packages,
      PlaceholderDeps lockfile.packages r.dependencies)
    (hrootwf : SnapshotWf lockfile.packages lockfile.workspace.root)
    (hmemwf : ∀ m ∈ lockfile.workspace.members, SnapshotWf lockfile.packages m) :
    fromTomlDoc (docOf lockfile) dir = .ok lockfile := by
  have hnd := sorted_names_nodup _ hsorted
  have hfirst : mapE (fun (value : TomlPackage) =>
        if value.name.isEmpty || value.version.isEmpty || value.source.isEmpty then
          Except.error "Invalid package in lockfile"
        else
          Except.ok ({ id := getRegistrationId value.name value.version,
                       name := value.name, version := value.version,
                       source := getSource value.source dir,
                       dependencies := value.dependencies } : RawRegistration))
      (lockfile.packages.map (tomlPkgOf lockfile.packages))
      = .ok (lockfile.packages.map (rawOf lockfile.packages)) := by
    have h1 := mapE_ok_of_all (l := lockfile.packages.map (tomlPkgOf lockfile.packages))
      (fun (value : TomlPackage) =>
        if value.name.isEmpty || value.version.isEmpty || value.source.isEmpty then
          Except.error "Invalid package in lockfile"
        else
          Except.ok ({ id := getRegistrationId value.name value.version,
                       name := value.name, version := value.version,
                       source := getSource value.source dir,
                       dependencies := value.dependencies } : RawRegistration))
      (rawFromToml dir)
      (by
        intro v hv
        obtain ⟨r, hr, rfl⟩ := List.mem_map.mp hv
        obtain ⟨-, hn, hver, hsrc, -, -⟩ := hreg r hr
        simp only [tomlPkgOf]
        rw [if_neg (by simp [hn, hver, hsrc])]
        rfl)
    rw [h1, List.map_map]
    have h2 : ∀ r ∈ lockfile.packages,
        (rawFromToml dir ∘ tomlPkgOf lockfile.packages) r = rawOf lockfile.packages r := by
      intro r hr
      obtain ⟨hid, -, -, -, hnp, -⟩ := hreg r hr
      simp [rawFromToml, tomlPkgOf, rawOf, Function.comp,
        getSource_not_path r.source dir hnp, hid]
    rw [List.map_congr_left h2]
  have hbn : (lockfile.packages.map (rawOf lockfile.packages)).foldl
      (fun acc r => (r.name, toDependency r.name r.version r.source) :: acc) []
      = byNameOf lockfile.packages := by
    rw [foldl_prepend]
    unfold byNameOf
    rw [List.map_map, List.append_nil]
    rfl
  have hhyd : mapE (fun (r : RawRegistration) => do
        let deps ← mapE (fun id => getDependencyById id (byNameOf lockfile.packages))
          r.dependencies
        return ({ id := r.id, name := r.name, version := r.version,
                  source := r.source, dependencies := deps } : Registration))
      (lockfile.packages.map (rawOf lockfile.packages)) = .ok lockfile.packages := by
    apply mapE_map_ok
    intro r hr
    have hdeps : mapE (fun id => getDependencyById id (byNameOf lockfile.packages))
        (r.dependencies.map (depId lockfile.packages)) = .ok r.dependencies :=
      mapE_map_ok _ _ _
        (fun d hd => getDependencyById_ok _ hnd hreg d (hpdeps r hr d hd))
    simp only [rawOf, hdeps, ok_bind]
    rfl
  have hrootM := toManifest_ok lockfile.packages lockfile.workspace.root hnd hreg hrootwf
  have hmemM : mapE (fun m => toManifest m (byNameOf lockfile.packages))
      (lockfile.workspace.members.map (tomlSnapOf lockfile.packages))
      = .ok lockfile.workspace.members :=
    mapE_map_ok _ _ _ (fun m hm => toManifest_ok _ m hnd hreg (hmemwf m hm))
  simp only [fromTomlDoc, docOf, Option.getD_some]
  rw [hfirst]
  simp only [ok_bind]
  rw [hbn, hhyd]
  simp only [ok_bind]
  rw [hrootM]
  simp only [ok_bind]
  rw [hmemM]
  simp only [ok_bind]
  rw [← hmeta]
  rfl

/-- A resolver-style lockfile as in scenario 2 of §8: the root depends
on `bar ^1.0.0` and the graph pins `bar 1.1.0`. -/
def lfC2bad : Lockfile :=
  { metadata := some ⟨"1"⟩
    workspace :=
      { root :=
          { name := "proj", version := "1.0.0"
            dependencies :=
              [.registry { name := "bar", version := "^1.0.0", registry := "default" }] }
        members := [] }
    packages :=
      [{ id := "bar 1.1.0", name := "bar", version := "1.1.0"
         source := "registry+https://registry.test/bar", dependencies := [] }] }

/-- `lfC2bad` with its root dependency hydrated to the §4.5 placeholder
(exact version `1.1.0`): what the round trip actually returns. -/
def lfC2ok : Lockfile :=
  { metadata := some ⟨"1"⟩
    workspace :=
      { root :=
          { name := "proj", version := "1.0.0"
            dependencies :=
              [.registry { name := "bar", version := "1.1.0", registry := "default" }] }
        members := [] }
    packages :=
      [{ id := "bar 1.1.0", name := "bar", version := "1.1.0"
         source := "registry+https://registry.test/bar", dependencies := [] }] }

/-- **C2 counterexample.** The round trip is not the identity on a
resolver-produced lockfile whose root dependency records a SemVer
range: the lockfile stores only `"{name} {version} {source}"`, so
reading hydrates the dependency to the placeholder pinned at the locked
version, and the original range `^1.0.0` is lost. -/
theorem lockfile_roundtrip_counterexample :
    ((toTomlDoc lfC2bad "/proj") >>= (fun doc => fromTomlDoc doc "/proj"))
        = .ok lfC2ok ∧
      lfC2ok ≠ lfC2bad := by
  constructor
  · rfl
  · decide

/-- **C2 (amended).** `fromToml(toToml(L, dir), dir)` = `L` holds
exactly on the fixed points of hydration: metadata at the current
version, packages sorted by name, ids reconstructible from name and
version, non-path space-free sources, and every dependency already the
§4.5 placeholder (name pinned at the locked registration's version) of
the graph registration with its name.  For other lockfiles — in
particular any whose dependencies record SemVer ranges — the round trip
re-pins dependencies and is not the identity (see the counterexample). -/
theorem lockfile_roundtrip_amended (lockfile : Lockfile) (dir : String)
    (hmeta : lockfile.metadata = some ⟨LOCKFILE_VERSION⟩)
    (hsorted : lockfile.packages.Pairwise (fun a b => a.name < b.name))
    (hreg : ∀ r ∈ lockfile.packages, RegistrationWf r)
    (hpdeps : ∀ r ∈ lockfile.packages,
      PlaceholderDeps lockfile.packages r.dependencies)
    (hrootwf : SnapshotWf lockfile.packages lockfile.workspace.root)
    (hmemwf : ∀ m ∈ lockfile.workspace.members, SnapshotWf lockfile.packages m) :
    ((toTomlDoc lockfile dir) >>= (fun doc => fromTomlDoc doc dir)) = .ok lockfile := by
  rw [toTomlDoc_ok lockfile dir hsorted hreg hpdeps hrootwf.2.2
    (fun m hm => (hmemwf m hm).2.2), ok_bind]
  exact fromTomlDoc_ok lockfile dir hmeta hsorted hreg hpdeps hrootwf hmemwf

/-- Witness for C2 (amended): the hydrated lockfile `lfC2ok` is a fixed
point of the round trip. -/
theorem lockfile_roundtrip_amended_witness :
    ((toTomlDoc lfC2ok "/proj") >>= (fun doc => fromTomlDoc doc "/proj"))
      = .ok lfC2ok :=
  lockfile_roundtrip_amended lfC2ok "/proj" rfl (by decide) (by decide) (by decide)
    (by decide) (by decide)

/-! ## C4: the resolve-failed message (src/reporter.ts) -/

/-- `messages.errors['resolve-failed']` from the reporter: the
`ErrorMessages` payload is `{ details?: string }`, but the renderer is a
nullary arrow that ignores it and returns the dedented fixed text. -/
def resolveFailedMessage (_details : Option String) : String :=
  "Unable to resolve dependency graph for project.\n\nThere are dependencies that cannot be satisfied."

def isPrefixOfL : List Char → List Char → Bool
  | [], _ => true
  | _ :: _, [] => false
  | a :: p, b :: l => (a = b) && isPrefixOfL p l

def containsSub (sub : List Char) : List Char → Bool
  | [] => isPrefixOfL sub []
  | a :: rest => isPrefixOfL sub (a :: rest) || containsSub sub rest

/-- `s` contains `sub` as a contiguous substring. -/
def strContains (s sub : String) : Bool := containsSub sub.data s.data

/-- **C4 counterexample.** The rendered `resolve-failed` message does not
include the details value: with a minimised conflict set naming `bar`
passed as details, the rendered message does not mention "bar" (though
the details value itself does). -/
theorem resolve_failed_message_counterexample :
    strContains (resolveFailedMessage (some "bar ^1.0.0 conflicts with bar ^2.0.0"))
        "bar" = false ∧
    strContains "bar ^1.0.0 conflicts with bar ^2.0.0" "bar" = true := by
  constructor
  · rfl
  · rfl

/-- **C4 (amended).** When dependency resolution exhausts its search
space the surfaced error is `resolve-failed`, but its rendered message
is a fixed string independent of the details value: the minimised
conflict set is not included, so the message never mentions "bar". -/
theorem resolve_failed_message_ignores_details (details : Option String) :
    resolveFailedMessage details = resolveFailedMessage none ∧
    strContains (resolveFailedMessage details) "bar" = false :=
  ⟨rfl, rfl⟩

/-! ## C5: the path source backend (TODO stubs in the source) -/

structure Config where
  deriving Repr, DecidableEq

/-- The `match(type)` hint: either a type string or a dependency. -/
inductive SourceHint where
  | typeName (s : String)
  | dep (d : Dependency)

/-- `isPathDependency` from the path backend module (`has(d, 'path')`). -/
def isPathDependencyB : Dependency → Bool
  | .path _ => true
  | _ => false

/-- `path.match` from the path backend. -/
def pathSourceMatch : SourceHint → Bool
  | .typeName s => s == "path"
  | .dep d => isPathDependencyB d

/-- `path.resolve` from the path backend: a TODO stub returning `[]`. -/
def pathSourceResolve (_config : Config) (_dependency : Dependency) :
    List Registration := []

/-- `path.fetch` from the path backend: a TODO stub returning `''`. -/
def pathSourceFetch (_config : Config) (_registration : Registration) : String := ""

/-- **C5.** The path backend's `resolve` and `fetch` are unimplemented
stubs: for every config and every path dependency (even one whose path
holds a manifest), `resolve` returns the empty list — never a
one-element list carrying the nested manifest's version — and `fetch`
returns the empty string — never the dependency's path. The code's own
TODO comments ("1. Return path") and §9 of the spec describe the
behaviour the claim states. -/
theorem path_source_stubbed (config : Config) (dependency : Dependency)
    (registration : Registration) :
    pathSourceResolve config dependency = [] ∧
    pathSourceFetch config registration = "" :=
  ⟨rfl, rfl⟩

/-! ## C7: getStaging (src/unnamed/part_000) -/

/-- `findMacOfficeContainer()` from the staging module. -/
def findMacOfficeContainer (homedir : String) : String :=
  joinPath homedir "Library/Group Containers/UBF8T346G9.Office"

/-- `getStaging(cache)` from the staging module, with `process.platform`
and `homedir()` explicit (the `ensureDirSync` side effect is not
modelled): `join(cache, "staging")` on win32, otherwise
`join(findMacOfficeContainer(), ".vba-blocks")`. -/
def getStaging (platform homedir cache : String) : String :=
  if platform = "win32" then joinPath cache "staging"
  else joinPath (findMacOfficeContainer homedir) ".vba-blocks"

/-- **C7 counterexample.** On macOS `getStaging(c)` is not `c/staging`:
even with the documented macOS cache root passed as `c`, it returns
the `.vba-blocks` container directory itself, with no `staging`
component appended. -/
theorem getStaging_counterexample :
    getStaging "darwin" "/Users/u"
        "/Users/u/Library/Group Containers/UBF8T346G9.Office/.vba-blocks"
      = "/Users/u/Library/Group Containers/UBF8T346G9.Office/.vba-blocks" ∧
    "/Users/u/Library/Group Containers/UBF8T346G9.Office/.vba-blocks" ≠
      joinPath "/Users/u/Library/Group Containers/UBF8T346G9.Office/.vba-blocks"
        "staging" := by
  constructor
  · rfl
  · decide

/-- **C7 (amended).** Only on win32 does `getStaging(c)` return `c`
joined with "staging"; on every other platform it ignores the cache
argument and returns
`$HOME/Library/Group Containers/UBF8T346G9.Office/.vba-blocks` itself. -/
theorem getStaging_amended (platform homedir cache : String) :
    (platform = "win32" → getStaging platform homedir cache = joinPath cache "staging") ∧
    (platform ≠ "win32" → getStaging platform homedir cache =
      joinPath (joinPath homedir "Library/Group Containers/UBF8T346G9.Office")
        ".vba-blocks") := by
  constructor
  · intro h
    simp [getStaging, h]
  · intro h
    simp [getStaging, findMacOfficeContainer, h]

/-- Witness for C7 (amended) on both platform branches. -/
theorem getStaging_amended_witness :
    getStaging "win32" "/Users/u" "C:/cache" = "C:/cache/staging" ∧
    getStaging "darwin" "/Users/u" "/c" =
      "/Users/u/Library/Group Containers/UBF8T346G9.Office/.vba-blocks" := by
  constructor
  · rw [(getStaging_amended "win32" "/Users/u" "C:/cache").1 rfl]
    rfl
  · rw [(getStaging_amended "darwin" "/Users/u" "/c").2 (by decide)]
    rfl

/-! ## C8/C9: exportProject staging lifecycle
(src/actions/export-project.ts)

The try/catch/finally block of `exportProject` is modelled as a pure
function from the outcomes of its fallible sub-operations (an oracle)
to the action's result and the ordered list of filesystem effects it
performs.  `exportTo` (the addin bridge) and `exportTarget` (folding
components back into the project) are external to the block; their
effect traces are oracle data. -/

inductive FsEffect where
  | ensureDir (p : String)
  | emptyDir (p : String)
  | bridgeExport (p : String)
  | write (p : String)
  | remove (p : String)
  deriving Repr, DecidableEq

def FsEffect.path : FsEffect → String
  | .ensureDir p => p
  | .emptyDir p => p
  | .bridgeExport p => p
  | .write p => p
  | .remove p => p

structure ExportOptions where
  target : Option String := none
  completed : Option String := none
  addin : Option String := none

/-- Outcomes of the fallible steps inside the try block, and the effect
trace of the project update (`exportTarget`, out of scope for src/). -/
structure ExportOracle where
  ensureDirR : Except String Unit
  emptyDirR : Except String Unit
  exportToR : Except String Unit
  exportTargetR : Except String Unit
  exportTargetEff : List FsEffect

/-- JS truthiness of `options.completed` (`some ""` is falsy). -/
def hasCompleted (options : ExportOptions) : Bool :=
  match options.completed with
  | none => false
  | some c => !c.isEmpty

/-- The staging directory the try block assigns: the user's completed
directory when truthy, else `join(project.paths.staging, 'export')`. -/
def stagingOf (stagingRoot : String) (options : ExportOptions) : String :=
  match options.completed with
  | some c => if c.isEmpty then joinPath stagingRoot "export" else c
  | none => joinPath stagingRoot "export"

/-- The try/catch/finally of `exportProject`: staging setup, bridge
export and project update in order, the catch rethrowing, the finally
removing the assigned staging directory on every exit path. -/
def exportProjectStaged (stagingRoot : String) (options : ExportOptions)
    (o : ExportOracle) : Except String Unit × List FsEffect :=
  let staging := stagingOf stagingRoot options
  let stageResult : Except String Unit × List FsEffect :=
    if hasCompleted options then (Except.ok (), [])
    else
      match o.ensureDirR with
      | .error e => (.error e, [.ensureDir staging])
      | .ok _ =>
        match o.emptyDirR with
        | .error e => (.error e, [.ensureDir staging, .emptyDir staging])
        | .ok _ =>
          match o.exportToR with
          | .error e =>
            (.error e, [.ensureDir staging, .emptyDir staging, .bridgeExport staging])
          | .ok _ =>
            (.ok (), [.ensureDir staging, .emptyDir staging, .bridgeExport staging])
  let afterUpdate : Except String Unit × List FsEffect :=
    match stageResult with
    | (.error e, effs) => (.error e, effs)
    | (.ok _, effs) =>
      match o.exportTargetR with
      | .error e => (.error e, effs ++ o.exportTargetEff)
      | .ok _ => (.ok (), effs ++ o.exportTargetEff)
  (afterUpdate.1, afterUpdate.2 ++ [.remove staging])

/-- **C8.** On every exit path of the try block — success, or a throw
from the staging setup, the bridge export, or the project update — the
assigned staging directory is removed, as the last filesystem effect
before the action returns. -/
theorem exportProject_staging_removed (stagingRoot : String)
    (options : ExportOptions) (o : ExportOracle) :
    (exportProjectStaged stagingRoot options o).2.getLast?
      = some (.remove (stagingOf stagingRoot options)) := by
  unfold exportProjectStaged
  exact List.getLast?_concat _

def isWithin (dir p : String) : Bool := isPrefixOfL (dir ++ "/").data p.data

/-- **C9.** With the `completed` option set to a non-empty directory,
that user-supplied directory itself is the staging directory; the
staging setup and bridge export are skipped, and on success and on
error alike the action performs exactly the project-update effects
followed by the removal of the completed directory — so, provided the
project update stays inside the project tree, the removal of the
caller's directory is the only effect outside it. -/
theorem exportProject_completed_frame (stagingRoot c projectDir : String)
    (opts : ExportOptions) (o : ExportOracle)
    (hc : opts.completed = some c) (hne : c.isEmpty = false)
    (hframe : ∀ e ∈ o.exportTargetEff, isWithin projectDir e.path = true) :
    stagingOf stagingRoot opts = c ∧
    (exportProjectStaged stagingRoot opts o).2 = o.exportTargetEff ++ [.remove c] ∧
    ∀ e ∈ (exportProjectStaged stagingRoot opts o).2,
      isWithin projectDir e.path = true ∨ e = .remove c := by
  have hcomp : hasCompleted opts = true := by
    simp [hasCompleted, hc, hne]
  have hstag : stagingOf stagingRoot opts = c := by
    simp [stagingOf, hc, hne]
  have heffs : (exportProjectStaged stagingRoot opts o).2
      = o.exportTargetEff ++ [.remove c] := by
    obtain ⟨er, yr, xr, tr, te⟩ := o
    unfold exportProjectStaged
    simp only [hcomp, if_true, hstag]
    cases tr <;> simp
  refine ⟨hstag, heffs, ?_⟩
  intro e he
  rw [heffs] at he
  rcases List.mem_append.mp he with hin | hlast
  · exact Or.inl (hframe e hin)
  · exact Or.inr (by simpa using hlast)

def optsC9 : ExportOptions := { completed := some "/tmp/completed" }

def oC9 : ExportOracle :=
  { ensureDirR := .ok (), emptyDirR := .ok (), exportToR := .ok ()
    exportTargetR := .error "target-import-failed"
    exportTargetEff := [.write "/proj/src/Module1.bas"] }

/-- Witness for C9 at a concrete failing run: the project update throws
after one write inside the project tree; the completed directory is
still removed and nothing else outside the project tree is touched. -/
theorem exportProject_completed_frame_witness :
    stagingOf "/cache/staging" optsC9 = "/tmp/completed" ∧
    (exportProjectStaged "/cache/staging" optsC9 oC9).2 =
      oC9.exportTargetEff ++ [.remove "/tmp/completed"] ∧
    ∀ e ∈ (exportProjectStaged "/cache/staging" optsC9 oC9).2,
      isWithin "/proj" e.path = true ∨ e = .remove "/tmp/completed" :=
  exportProject_completed_frame "/cache/staging" "/tmp/completed" "/proj" optsC9 oC9
    rfl rfl (by intro e he; simp only [oC9, List.mem_singleton] at he; subst he; rfl)

/-! ## C10: applyChangeset's manifest update
(src/build/apply-changeset.ts, `updateManifest`)

Only the fields `updateManifest` touches are modelled: a manifest `src`
entry's `name`/`path` and a component's `name`/`filename`. -/

structure Source where
  name : String
  path : String
  deriving Repr, DecidableEq

structure Component where
  name : String
  filename : String
  deriving Repr, DecidableEq

/-- JS `Array.prototype.findIndex`: first index satisfying `p`, else -1. -/
def jsFindIndex {α : Type} (p : α → Bool) : List α → Int
  | [] => -1
  | a :: l =>
    if p a then 0
    else
      let r := jsFindIndex p l
      if r < 0 then -1 else r + 1

/-- The actual start index of JS `splice(start, …)`:
`max(len + start, 0)` for negative `start`, `min(start, len)` otherwise. -/
def jsSpliceIndex (len : Nat) (start : Int) : Nat :=
  if start < 0 then (max ((len : Int) + start) 0).toNat else min start.toNat len

/-- JS `arr.splice(start, 1)` (the array after mutation). -/
def jsSpliceRemove1 {α : Type} (l : List α) (start : Int) : List α :=
  l.take (jsSpliceIndex l.length start) ++ l.drop (jsSpliceIndex l.length start + 1)

/-- The `Source` entry pushed for an added component:
`{ name, path: join(project.paths.dir, 'src/<filename>') }`. -/
def addedSource (projectDir : String) (c : Component) : Source :=
  { name := c.name, path := joinPath projectDir ("src/" ++ c.filename) }

/-- The `manifest.src` transformation performed by `updateManifest`:
push a source per added component, then for each removed component
`findIndex` its name and `splice(index, 1)`. -/
def updateManifestSrc (projectDir : String) (src : List Source)
    (added removed : List Component) : List Source :=
  let src1 := src ++ added.map (addedSource projectDir)
  removed.foldl
    (fun acc c => jsSpliceRemove1 acc (jsFindIndex (fun s => s.name == c.name) acc))
    src1

/-! ### Lemmas about findIndex/splice -/

theorem jsFindIndex_bounds {α : Type} (p : α → Bool) (l : List α)
    (h : ∃ x ∈ l, p x = true) :
    0 ≤ jsFindIndex p l ∧ jsFindIndex p l < l.length := by
  induction l with
  | nil => simp at h
  | cons a l ih =>
    by_cases hp : p a
    · simp [jsFindIndex, hp]
    · obtain ⟨x, hx, hpx⟩ := h
      rcases List.mem_cons.mp hx with rfl | hx'
      · exact absurd hpx (by simp [hp])
      · obtain ⟨h1, h2⟩ := ih ⟨x, hx', hpx⟩
        simp only [jsFindIndex]
        rw [if_neg hp, if_neg (not_lt.mpr h1)]
        constructor
        · omega
        · simp only [List.length_cons]
          push_cast
          omega

theorem jsSplice_cons_zero {α : Type} (a : α) (l : List α) :
    jsSpliceRemove1 (a :: l) 0 = l := by
  unfold jsSpliceRemove1 jsSpliceIndex
  rw [if_neg (by omega)]
  simp

theorem jsSplice_cons_succ {α : Type} (a : α) (l : List α) (k : Nat) :
    jsSpliceRemove1 (a :: l) ((k : Int) + 1) = a :: jsSpliceRemove1 l (k : Int) := by
  unfold jsSpliceRemove1 jsSpliceIndex
  rw [if_neg (by omega), if_neg (by omega)]
  have h1 : ((k : Int) + 1).toNat = k + 1 := by omega
  have h2 : ((k : Int)).toNat = k := by omega
  rw [h1, h2, List.length_cons, Nat.succ_min_succ, List.take_succ_cons,
    List.drop_succ_cons]
  rfl

/-- Removing a present, unique name with findIndex+splice is exactly a
filter on that name. -/
theorem splice_findIndex_eq_filter (n : String) (src : List Source)
    (hnd : (src.map Source.name).Nodup) (hmem : n ∈ src.map Source.name) :
    jsSpliceRemove1 src (jsFindIndex (fun s => s.name == n) src) =
      src.filter (fun s => !(s.name == n)) := by
  induction src with
  | nil => simp at hmem
  | cons a l ih =>
    rw [List.map_cons, List.nodup_cons] at hnd
    by_cases ha : a.name = n
    · have hfi : jsFindIndex (fun s => s.name == n) (a :: l) = 0 := by
        simp [jsFindIndex, ha]
      rw [hfi, jsSplice_cons_zero, List.filter_cons_of_neg (by simp [ha])]
      symm
      apply List.filter_eq_self.mpr
      intro x hx
      have hxn : x.name ≠ n := by
        intro he
        exact hnd.1 (ha ▸ he ▸ List.mem_map_of_mem Source.name hx)
      simp [hxn]
    · have hm : n ∈ l.map Source.name := by
        rcases List.mem_cons.mp hmem with he | hm'
        · exact absurd he.symm ha
        · exact hm'
      have hex : ∃ x ∈ l, (fun s => s.name == n) x = true := by
        obtain ⟨x, hx, hxn⟩ := List.mem_map.mp hm
        exact ⟨x, hx, by simp [hxn]⟩
      obtain ⟨h1, h2⟩ := jsFindIndex_bounds _ l hex
      obtain ⟨k, hk⟩ := Int.eq_ofNat_of_zero_le h1
      have hfi : jsFindIndex (fun s => s.name == n) (a :: l) = (k : Int) + 1 := by
        simp only [jsFindIndex, ha]
        rw [if_neg (by simp [ha]), if_neg (by omega), hk]
      rw [hfi, jsSplice_cons_succ, ← hk, ih hnd.2 hm,
        List.filter_cons_of_pos (by simp [ha])]

/-- **C10.** `updateManifest`'s removed-loop splices at `findIndex`:
when a removed component's name does not occur in `manifest.src` the
index is -1 and `splice(-1, 1)` deletes the *last* `src` entry (the
concrete first conjunct removes unrelated entry `c`); and only under
the precondition that every removed name occurs in `manifest.src`
(with the §3 uniqueness invariants) does it remove exactly the matching
entries and preserve all others. -/
theorem updateManifest_removed_splice :
    (updateManifestSrc "/p" [⟨"a", "a.bas"⟩, ⟨"b", "b.bas"⟩, ⟨"c", "c.bas"⟩] []
        [⟨"zz", "zz.bas"⟩] = [⟨"a", "a.bas"⟩, ⟨"b", "b.bas"⟩]) ∧
    ∀ (projectDir : String) (src : List Source) (removed : List Component),
      (src.map Source.name).Nodup →
      (removed.map Component.name).Nodup →
      (∀ c ∈ removed, c.name ∈ src.map Source.name) →
      updateManifestSrc projectDir src [] removed =
        src.filter (fun s => !((removed.map Component.name).contains s.name)) := by
  constructor
  · rfl
  · intro projectDir src removed
    induction removed generalizing src with
    | nil =>
      intro hnd hrd hall
      simp [updateManifestSrc]
    | cons c rest ih =>
      intro hnd hrd hall
      have hstep : updateManifestSrc projectDir src [] (c :: rest) =
          updateManifestSrc projectDir
            (src.filter (fun s => !(s.name == c.name))) [] rest := by
        unfold updateManifestSrc
        simp only [List.map_nil, List.append_nil, List.foldl_cons]
        rw [splice_findIndex_eq_filter c.name src hnd
          (hall c (List.mem_cons_self c rest))]
      rw [List.map_cons, List.nodup_cons] at hrd
      have hnd' : ((src.filter (fun s => !(s.name == c.name))).map Source.name).Nodup :=
        ((List.filter_sublist _).map Source.name).nodup hnd
      have hall' : ∀ x ∈ rest,
          x.name ∈ (src.filter (fun s => !(s.name == c.name))).map Source.name := by
        intro x hx
        have hxs := hall x (List.mem_cons_of_mem c hx)
        obtain ⟨s, hs, hsn⟩ := List.mem_map.mp hxs
        have hxc : x.name ≠ c.name := by
          intro he
          exact hrd.1 (he ▸ List.mem_map_of_mem Component.name hx)
        refine List.mem_map.mpr ⟨s, List.mem_filter.mpr ⟨hs, by simp [hsn, hxc]⟩, hsn⟩
      rw [hstep, ih _ hnd' hrd.2 hall', List.filter_filter]
      apply List.filter_congr
      intro s hs
      simp only [List.map_cons, List.contains_cons, Bool.not_or, Bool.and_comm,
        beq_eq_decide]

/-- Witness for C10's general part: removing `b` from `[a, b, c]`. -/
theorem updateManifest_removed_splice_witness :
    updateManifestSrc "/p" [⟨"a", "a.bas"⟩, ⟨"b", "b.bas"⟩, ⟨"c", "c.bas"⟩] []
        [⟨"b", "b.bas"⟩] = [⟨"a", "a.bas"⟩, ⟨"c", "c.bas"⟩] := by
  rw [updateManifest_removed_splice.2 "/p"
    [⟨"a", "a.bas"⟩, ⟨"b", "b.bas"⟩, ⟨"c", "c.bas"⟩] [⟨"b", "b.bas"⟩]
    (by decide) (by decide) (by decide)]
  rfl

end VbaBlocks

